import Mathlib

/-!
A verification development for the layered configuration-value resolver
(`options/src/config.rs`): a TOML-backed layer store with merge semantics
and a typed accessor protocol.

The TOML value tree is embedded as a nested inductive; TOML tables are
embedded as insertion-ordered association lists (the spec describes the
table type as an ordered mapping of string to value).  The panicking
`as_table_mut().unwrap()` calls inside `merge` are embedded by giving
`merge` an `Option` result that is `none` exactly when some unwrap would
panic.
-/

set_option maxHeartbeats 1000000

/-- The generic TOML value tree (`toml::Value`): one constructor per shape. -/
inductive Value where
  | boolean : Bool → Value
  | integer : Int → Value
  | float : Float → Value
  | string : String → Value
  | datetime : String → Value
  | array : List Value → Value
  | table : List (String × Value) → Value

/-- First-match lookup in a table, embedding `Table::get` on the ordered map. -/
def tableGet : List (String × Value) → String → Option Value
  | [], _ => none
  | (k, v) :: rest, key => if k = key then some v else tableGet rest key

/-- The keys of a table, in order. -/
def tableKeys (t : List (String × Value)) : List String :=
  t.map Prod.fst

/-- Modelled from the spec: ordered-map insert of the external table type — an
existing key keeps its position and gets the new value; a new key is
appended. -/
def insertKV : List (String × Value) → String → Value → List (String × Value)
  | [], k, v => [(k, v)]
  | (k0, v0) :: rest, k, v =>
    if k0 = k then (k, v) :: rest else (k0, v0) :: insertKV rest k v

/-- `Table::extend`: fold the right table's bindings into the left one, so the
right side wins on key collisions. -/
def tableExtend (t other : List (String × Value)) : List (String × Value) :=
  other.foldl (fun acc p => insertKV acc p.1 p.2) t

/-- Modelled from the spec: `Table::remove` of the external ordered-map type
removes the first binding of the key, keeping the remaining bindings in their
original order, and returns the removed value. -/
def removeKey : List (String × Value) → String → Option Value × List (String × Value)
  | [], _ => (none, [])
  | (k, v) :: rest, key =>
    if k = key then (some v, rest)
    else
      let r := removeKey rest key
      (r.1, (k, v) :: r.2)

/-- `Value::get`: key lookup that yields `none` on a non-table value. -/
def Value.get : Value → String → Option Value
  | .table t, key => tableGet t key
  | _, _ => none

/-- `Value::is_table`. -/
def Value.is_table : Value → Bool
  | .table _ => true
  | _ => false

/-- `Value::as_table`. -/
def Value.as_table : Value → Option (List (String × Value))
  | .table t => some t
  | _ => none

/-- `Value::as_str`: exact-variant extraction of a string. -/
def Value.as_str : Value → Option String
  | .string s => some s
  | _ => none

/-- `Value::as_bool`: exact-variant extraction of a boolean. -/
def Value.as_bool : Value → Option Bool
  | .boolean b => some b
  | _ => none

/-- `Value::as_integer`: exact-variant extraction of an integer (a float is
never converted). -/
def Value.as_integer : Value → Option Int
  | .integer n => some n
  | _ => none

/-- `Value::as_float`: exact-variant extraction of a float (an integer is
never converted). -/
def Value.as_float : Value → Option Float
  | .float f => some f
  | _ => none

/-- `Value::as_array`. -/
def Value.as_array : Value → Option (List Value)
  | .array vs => some vs
  | _ => none

/-- `Value::type_str`: the type name used in shape-error messages. -/
def Value.type_str : Value → String
  | .boolean _ => "boolean"
  | .integer _ => "integer"
  | .float _ => "float"
  | .string _ => "string"
  | .datetime _ => "datetime"
  | .array _ => "array"
  | .table _ => "table"

mutual
/-- Modelled from the spec: the textual rendering of a raw value used inside
error messages is owned by the external TOML library's Display instance; it is
embedded here as a total renderer.  No claim depends on its exact output for
composite or float values. -/
def Value.render : Value → String
  | .boolean b => if b then "true" else "false"
  | .integer n => toString n
  | .float f => toString f
  | .string s => "\x22" ++ s ++ "\x22"
  | .datetime s => s
  | .array vs => "[" ++ renderList vs ++ "]"
  | .table t => "\x7b " ++ renderEntries t ++ " \x7d"

/-- Render the elements of an array, comma separated. -/
def renderList : List Value → String
  | [] => ""
  | [v] => Value.render v
  | v :: rest => Value.render v ++ ", " ++ renderList rest

/-- Render the bindings of a table, comma separated. -/
def renderEntries : List (String × Value) → String
  | [] => ""
  | [(k, v)] => k ++ " = " ++ Value.render v
  | (k, v) :: rest => k ++ " = " ++ Value.render v ++ ", " ++ renderEntries rest
end

/-- Modelled from the spec: the option identity is an external opaque key
exposing a scope name, an option name (already name-transformed, as produced
by `id.name("_", NameTransform::None)`), and a display form for error
messages. -/
structure OptionId where
  scope : String
  name : String
  display : String

/-- `ListEditAction`: how one layer edits an accumulated list option. -/
inductive ListEditAction where
  | Add : ListEditAction
  | Remove : ListEditAction
  | Replace : ListEditAction
deriving DecidableEq, Repr

/-- `ListEdit<String>`: an action together with its items. -/
structure ListEdit where
  action : ListEditAction
  items : List String
deriving DecidableEq, Repr

/-- `StringDict`: a string-dict option value, either an unparsed literal or a
native mapping reconstructed from a table node (modelled from the spec as the
table's bindings, each generic value kept as-is). -/
inductive StringDict where
  | Literal : String → StringDict
  | Native : List (String × Value) → StringDict

/-- The layer store (`Config`): a wrapped generic value. -/
structure Config where
  config : Value

/-- `Config::default`: the empty store. -/
def Config.default : Config :=
  { config := Value.table [] }

/-- `Config::parse`, from the point where the external file read and TOML
parse have produced a generic value: the shape validation of the root and of
every top-level section. -/
def Config.parseValue (fileDisplay : String) (config : Value) : Except String Config :=
  if config.is_table = false then
    .error ("Expected the config file " ++ fileDisplay ++ " to contain a table but contained a "
      ++ config.type_str ++ ": " ++ config.render)
  else
    match (config.as_table.getD []).find? (fun p => p.2.is_table = false) with
    | some (key, sect) =>
      .error ("Expected the config file " ++ fileDisplay
        ++ " to contain tables per section, but section " ++ key ++ " contained a "
        ++ sect.type_str ++ ": " ++ sect.render)
    | none => .ok { config := config }

/-- `Config::option_name`: the option name used for the table lookup and in
error messages, `id.name("_", NameTransform::None)`. -/
def Config.option_name (id : OptionId) : String :=
  id.name

/-- `Config::extract_string_list` inner loop: each array item must be a
string. -/
def extractItems (option_name : String) (whole : Value) :
    List Value → Except String (List String)
  | [] => .ok []
  | item :: rest =>
    match item.as_str with
    | some s => (extractItems option_name whole rest).map (fun items => s :: items)
    | none =>
      .error ("Expected " ++ option_name ++ " to be an array of strings but given "
        ++ whole.render ++ " containing non string item " ++ item.render)

/-- `Config::extract_string_list`: extract an array-of-strings value. -/
def Config.extract_string_list (option_name : String) (value : Value) :
    Except String (List String) :=
  match value.as_array with
  | some array => extractItems option_name value array
  | none =>
    .error ("Expected " ++ option_name ++ " to be a toml array or Python sequence, but given "
      ++ value.render ++ ".")

/-- `Config::get_value`: the raw value at the identity's scope and option
name. -/
def Config.get_value (self : Config) (id : OptionId) : Option Value :=
  (self.config.get id.scope).bind (fun table => table.get (Config.option_name id))

/-- The loop of `Config::merge`: walk `self`'s sections in order, draining the
matching section out of `other` and extending with it; returns the walked
sections and what is left of `other`.  `none` embeds a panicking
`as_table_mut().unwrap()` on a non-table section value. -/
def mergeAux : List (String × Value) → List (String × Value) →
    Option (List (String × Value) × List (String × Value))
  | [], other => some ([], other)
  | (sc, tv) :: rest, other =>
    match removeKey other sc with
    | (some otv, other') =>
      match tv.as_table, otv.as_table with
      | some tt, some ott =>
        (mergeAux rest other').map
          (fun r => ((sc, Value.table (tableExtend tt ott)) :: r.1, r.2))
      | _, _ => none
    | (none, _) =>
      (mergeAux rest other).map (fun r => ((sc, tv) :: r.1, r.2))

/-- `Config::merge`: merge overlapping sections (the other side's options
win), then extend with the non-overlapping sections.  `none` embeds a
panicking `as_table_mut().unwrap()`. -/
def Config.merge (self other : Config) : Option Config :=
  match self.config.as_table, other.config.as_table with
  | some map, some otherT =>
    (mergeAux map otherT).map (fun r => { config := Value.table (tableExtend r.1 r.2) })
  | _, _ => none

/-- `Config::merged`: fold a sequence of stores onto the empty store, later
stores taking precedence. -/
def Config.merged (configs : List Config) : Option Config :=
  configs.foldlM (fun acc c => acc.merge c) Config.default

/-- `OptionsSource::display` for `Config`. -/
def Config.display (_self : Config) (id : OptionId) : String :=
  id.display

/-- `Config::get_string`. -/
def Config.get_string (self : Config) (id : OptionId) : Except String (Option String) :=
  match self.get_value id with
  | some value =>
    match value.as_str with
    | some s => .ok (some s)
    | none => .error ("Expected " ++ id.display ++ " to be a string but given "
        ++ value.render ++ ".")
  | none => .ok none

/-- `Config::get_bool`. -/
def Config.get_bool (self : Config) (id : OptionId) : Except String (Option Bool) :=
  match self.get_value id with
  | some value =>
    match value.as_bool with
    | some b => .ok (some b)
    | none => .error ("Expected " ++ id.display ++ " to be a bool but given "
        ++ value.render ++ ".")
  | none => .ok none

/-- `Config::get_int`. -/
def Config.get_int (self : Config) (id : OptionId) : Except String (Option Int) :=
  match self.get_value id with
  | some value =>
    match value.as_integer with
    | some n => .ok (some n)
    | none => .error ("Expected " ++ id.display ++ " to be an int but given "
        ++ value.render ++ ".")
  | none => .ok none

/-- `Config::get_float`. -/
def Config.get_float (self : Config) (id : OptionId) : Except String (Option Float) :=
  match self.get_value id with
  | some value =>
    match value.as_float with
    | some f => .ok (some f)
    | none => .error ("Expected " ++ id.display ++ " to be a float but given "
        ++ value.render ++ ".")
  | none => .ok none

/-- One `add`/`remove` step of the table branch of `Config::get_string_list`:
an absent key yields no edit, a present key has its value extracted as an
array of strings, the error naming the key-qualified sub-option. -/
def editFor (sub_option : String) (sub_table : List (String × Value))
    (key : String) (act : ListEditAction) : Except String (List ListEdit) :=
  match tableGet sub_table key with
  | some v =>
    (Config.extract_string_list sub_option v).map
      (fun items => [ListEdit.mk act items])
  | none => .ok []

/-- The body of `Config::get_string_list` once the scope's table is in hand:
compute the list edits for the option, or an error.  An absent option yields
the empty edit list.  `psl` is the external `parse_string_list` collaborator
(modelled from the spec), whose error is a renderable value closed over by its
`render` method. -/
def computeEdits (psl : String → Except (String → String) (List ListEdit))
    (option_name : String) (table : Value) : Except String (List ListEdit) :=
  match table.get option_name with
  | none => .ok []
  | some (Value.table sub_table) =>
    if sub_table.isEmpty
        || !(sub_table.all (fun p => p.1 = "add" || p.1 = "remove")) then
      .error ("Expected " ++ option_name
        ++ " to contain an \x27add\x27 element, a \x27remove\x27 element or both but found: "
        ++ Value.render (Value.table sub_table))
    else
      match editFor (option_name ++ ".add") sub_table "add" ListEditAction.Add with
      | .error e => .error e
      | .ok e1 =>
        match editFor (option_name ++ ".remove") sub_table "remove" ListEditAction.Remove with
        | .error e => .error e
        | .ok e2 => .ok (e1 ++ e2)
  | some (Value.string v) =>
    match psl v with
    | .error e => .error (e option_name)
    | .ok es => .ok es
  | some value =>
    (Config.extract_string_list option_name value).map
      (fun items => [ListEdit.mk ListEditAction.Replace items])

/-- `Config::get_string_list`: an absent scope yields `none`; otherwise, edits
are computed for the option and a nonempty edit list yields `some`. -/
def Config.get_string_list (psl : String → Except (String → String) (List ListEdit))
    (self : Config) (id : OptionId) : Except String (Option (List ListEdit)) :=
  match self.config.get id.scope with
  | some table =>
    match computeEdits psl (Config.option_name id) table with
    | .error e => .error e
    | .ok list_edits =>
      if list_edits.isEmpty then .ok none else .ok (some list_edits)
  | none => .ok none

/-- `Config::get_string_dict`: a string yields a literal, a table yields a
native mapping, absence yields `none`, anything else is an error. -/
def Config.get_string_dict (self : Config) (id : OptionId) :
    Except String (Option StringDict) :=
  match self.config.get id.scope with
  | none => .ok none
  | some sect =>
    match sect.get (Config.option_name id) with
    | some (Value.string s) => .ok (some (StringDict.Literal s))
    | some (Value.table t) => .ok (some (StringDict.Native t))
    | none => .ok none
    | some v =>
      .error ("Expected " ++ self.display id ++ " to be of type string or table, but was a "
        ++ v.type_str ++ ": " ++ v.render)

/-- Does the table have no repeated key? -/
def nodupKeys : List (String × Value) → Bool
  | [] => true
  | (k, _) :: rest => !(rest.any (fun p => p.1 = k)) && nodupKeys rest

/-- The construction-time store invariant of the spec: the root is a table and
every section value is a table. -/
def Value.storeShaped : Value → Bool
  | .table t => t.all (fun p => p.2.is_table)
  | _ => false

/-- A store as the external ordered-map representation guarantees it: shaped,
with no repeated scope key and no repeated option key inside a section. -/
def Value.wellFormedStore : Value → Bool
  | .table t =>
    nodupKeys t && t.all (fun p =>
      match p.2 with
      | .table st => nodupKeys st
      | _ => false)
  | _ => false

/-! ### Table lemmas -/

theorem tableGet_eq_none_of_not_any {t : List (String × Value)} {k : String}
    (h : t.any (fun p => p.1 = k) = false) : tableGet t k = none := by
  induction t with
  | nil => rfl
  | cons p rest ih =>
    obtain ⟨k0, v0⟩ := p
    simp only [List.any_cons, Bool.or_eq_false_iff, decide_eq_false_iff_not] at h
    simp only [tableGet, if_neg h.1]
    exact ih (by simpa using h.2)

theorem any_key_of_tableGet_some {t : List (String × Value)} {k : String} {v : Value}
    (h : tableGet t k = some v) : t.any (fun p => p.1 = k) = true := by
  induction t with
  | nil => simp [tableGet] at h
  | cons p rest ih =>
    obtain ⟨k0, v0⟩ := p
    simp only [tableGet] at h
    by_cases hk : k0 = k
    · simp [List.any_cons, hk]
    · rw [if_neg hk] at h
      simp [List.any_cons, ih h]

theorem tableGet_mem {t : List (String × Value)} {k : String} {v : Value}
    (h : tableGet t k = some v) : (k, v) ∈ t := by
  induction t with
  | nil => simp [tableGet] at h
  | cons p rest ih =>
    obtain ⟨k0, v0⟩ := p
    simp only [tableGet] at h
    by_cases hk : k0 = k
    · rw [if_pos hk] at h
      cases h
      subst hk
      exact List.mem_cons_self _ _
    · rw [if_neg hk] at h
      exact List.mem_cons_of_mem _ (ih h)

theorem tableGet_insertKV (t : List (String × Value)) (k k' : String) (v : Value) :
    tableGet (insertKV t k v) k' = if k' = k then some v else tableGet t k' := by
  induction t with
  | nil =>
    simp only [insertKV, tableGet]
    by_cases h : k' = k
    · subst h
      simp
    · rw [if_neg h, if_neg (fun hh => h hh.symm)]
  | cons p rest ih =>
    obtain ⟨k0, v0⟩ := p
    simp only [insertKV]
    by_cases h0 : k0 = k
    · rw [if_pos h0]
      simp only [tableGet]
      by_cases h' : k' = k
      · subst h'
        rw [if_pos rfl, if_pos rfl]
      · rw [if_neg h', if_neg (fun hh => h' hh.symm), if_neg (h0 ▸ (fun hh => h' hh.symm) : ¬ (k0 = k'))]
    · rw [if_neg h0]
      simp only [tableGet]
      by_cases hh : k0 = k'
      · have : ¬ (k' = k) := by
          intro he
          exact h0 (hh.trans he)
        rw [if_pos hh, if_neg this, if_pos hh]
      · rw [if_neg hh, if_neg hh, ih]

theorem tableGet_tableExtend (t u : List (String × Value)) (k : String)
    (hnd : nodupKeys u = true) :
    tableGet (tableExtend t u) k = (tableGet u k).orElse (fun _ => tableGet t k) := by
  induction u generalizing t with
  | nil =>
    cases hg : tableGet t k <;> simp [tableExtend, tableGet, Option.orElse, hg]
  | cons p us ih =>
    obtain ⟨k0, v0⟩ := p
    simp only [nodupKeys, Bool.and_eq_true, Bool.not_eq_true', List.any_eq_false,
      decide_eq_true_eq] at hnd
    have hext : tableExtend t ((k0, v0) :: us) = tableExtend (insertKV t k0 v0) us := rfl
    rw [hext, ih _ hnd.2]
    simp only [tableGet, tableGet_insertKV]
    by_cases h' : k = k0
    · subst h'
      have husk : tableGet us k = none :=
        tableGet_eq_none_of_not_any (by
          simp only [List.any_eq_false, decide_eq_true_eq]
          intro p hp
          exact hnd.1 p hp)
      rw [if_pos rfl, husk, if_pos rfl]
      simp [Option.orElse]
    · have : ¬ (k0 = k) := fun hh => h' hh.symm
      rw [if_neg this, if_neg h']

theorem nodupKeys_cons {k : String} {v : Value} {rest : List (String × Value)}
    (h : nodupKeys ((k, v) :: rest) = true) :
    (∀ p ∈ rest, ¬ (p.1 = k)) ∧ nodupKeys rest = true := by
  simp only [nodupKeys, Bool.and_eq_true, Bool.not_eq_true', List.any_eq_false,
    decide_eq_true_eq] at h
  exact h

theorem tableGet_append (t u : List (String × Value)) (k : String) :
    tableGet (t ++ u) k = (tableGet t k).orElse (fun _ => tableGet u k) := by
  induction t with
  | nil => simp [tableGet, Option.orElse]
  | cons p rest ih =>
    obtain ⟨k0, v0⟩ := p
    simp only [List.cons_append, tableGet]
    by_cases hk : k0 = k
    · simp [if_pos hk, Option.orElse]
    · simp [if_neg hk, ih]

theorem insertKV_of_not_mem {t : List (String × Value)} {k : String} {v : Value}
    (h : ∀ p ∈ t, ¬ (p.1 = k)) : insertKV t k v = t ++ [(k, v)] := by
  induction t with
  | nil => rfl
  | cons p rest ih =>
    obtain ⟨k0, v0⟩ := p
    have hk : ¬ (k0 = k) := h (k0, v0) (List.mem_cons_self _ _)
    simp only [insertKV, if_neg hk, List.cons_append, List.cons.injEq, true_and]
    exact ih (fun p hp => h p (List.mem_cons_of_mem _ hp))

theorem tableExtend_append_of_disjoint {t u : List (String × Value)}
    (hdisj : ∀ p ∈ u, ∀ q ∈ t, ¬ (q.1 = p.1)) (hnd : nodupKeys u = true) :
    tableExtend t u = t ++ u := by
  induction u generalizing t with
  | nil => simp [tableExtend]
  | cons p us ih =>
    obtain ⟨k0, v0⟩ := p
    obtain ⟨hnd1, hnd2⟩ := nodupKeys_cons hnd
    have hstep : tableExtend t ((k0, v0) :: us) = tableExtend (insertKV t k0 v0) us := rfl
    have hins : insertKV t k0 v0 = t ++ [(k0, v0)] :=
      insertKV_of_not_mem (fun q hq => hdisj (k0, v0) (List.mem_cons_self _ _) q hq)
    rw [hstep, hins, ih, List.append_assoc]
    · rfl
    · intro p hp q hq
      rcases List.mem_append.mp hq with hq | hq
      · exact hdisj p (List.mem_cons_of_mem _ hp) q hq
      · simp only [List.mem_singleton] at hq
        subst hq
        intro he
        exact hnd1 p hp he.symm
    · exact hnd2

theorem tableExtend_nil_left {u : List (String × Value)} (hnd : nodupKeys u = true) :
    tableExtend [] u = u := by
  rw [tableExtend_append_of_disjoint (by simp) hnd]
  rfl

theorem tableExtend_all {P : Value → Bool} {t u : List (String × Value)}
    (ht : t.all (fun p => P p.2) = true) (hu : u.all (fun p => P p.2) = true) :
    (tableExtend t u).all (fun p => P p.2) = true := by
  induction u generalizing t with
  | nil => exact ht
  | cons p us ih =>
    obtain ⟨k0, v0⟩ := p
    simp only [List.all_cons, Bool.and_eq_true] at hu
    have hstep : tableExtend t ((k0, v0) :: us) = tableExtend (insertKV t k0 v0) us := rfl
    rw [hstep]
    apply ih _ hu.2
    -- insert preserves the all-predicate
    clear hstep ih
    induction t with
    | nil => simp [insertKV, hu.1]
    | cons q qs ihq =>
      obtain ⟨kq, vq⟩ := q
      simp only [List.all_cons, Bool.and_eq_true] at ht
      by_cases hk : kq = k0
      · simp [insertKV, if_pos hk, List.all_cons, hu.1, ht.2]
      · simp only [insertKV, if_neg hk, List.all_cons, Bool.and_eq_true]
        exact ⟨ht.1, ihq ht.2⟩

/-! ### removeKey lemmas -/

theorem removeKey_fst (t : List (String × Value)) (k : String) :
    (removeKey t k).1 = tableGet t k := by
  induction t with
  | nil => rfl
  | cons p rest ih =>
    obtain ⟨k0, v0⟩ := p
    simp only [removeKey, tableGet]
    by_cases hk : k0 = k
    · rw [if_pos hk, if_pos hk]
    · rw [if_neg hk, if_neg hk]
      exact ih

theorem removeKey_snd_get {t : List (String × Value)} (hnd : nodupKeys t = true)
    (k k' : String) :
    tableGet (removeKey t k).2 k' = if k' = k then none else tableGet t k' := by
  induction t with
  | nil =>
    simp only [removeKey, tableGet]
    by_cases h : k' = k <;> simp [h]
  | cons p rest ih =>
    obtain ⟨k0, v0⟩ := p
    obtain ⟨hnd1, hnd2⟩ := nodupKeys_cons hnd
    simp only [removeKey]
    by_cases hk : k0 = k
    · rw [if_pos hk]
      by_cases h' : k' = k
      · rw [if_pos h']
        subst hk
        subst h'
        exact tableGet_eq_none_of_not_any (by
          simp only [List.any_eq_false, decide_eq_true_eq]
          exact hnd1)
      · rw [if_neg h']
        simp only [tableGet]
        rw [if_neg (by intro he; exact h' (by rw [← he, hk]))]
    · rw [if_neg hk]
      simp only [tableGet]
      by_cases h0 : k0 = k'
      · rw [if_pos h0, if_pos h0, if_neg (by intro he; exact hk (h0.trans he))]
      · rw [if_neg h0, if_neg h0, ih hnd2]

theorem removeKey_snd_mem {t : List (String × Value)} {k : String}
    {p : String × Value} (hp : p ∈ (removeKey t k).2) : p ∈ t := by
  induction t with
  | nil => simp [removeKey] at hp
  | cons q rest ih =>
    obtain ⟨k0, v0⟩ := q
    simp only [removeKey] at hp
    by_cases hk : k0 = k
    · rw [if_pos hk] at hp
      exact List.mem_cons_of_mem _ hp
    · rw [if_neg hk] at hp
      rcases List.mem_cons.mp hp with hp | hp
      · exact hp ▸ List.mem_cons_self _ _
      · exact List.mem_cons_of_mem _ (ih hp)

theorem removeKey_snd_nodup {t : List (String × Value)} (hnd : nodupKeys t = true)
    (k : String) : nodupKeys (removeKey t k).2 = true := by
  induction t with
  | nil => rfl
  | cons p rest ih =>
    obtain ⟨k0, v0⟩ := p
    obtain ⟨hnd1, hnd2⟩ := nodupKeys_cons hnd
    simp only [removeKey]
    by_cases hk : k0 = k
    · rw [if_pos hk]
      exact hnd2
    · rw [if_neg hk]
      simp only [nodupKeys, Bool.and_eq_true, Bool.not_eq_true', List.any_eq_false,
        decide_eq_true_eq]
      refine ⟨?_, ih hnd2⟩
      intro p hp
      exact hnd1 p (removeKey_snd_mem hp)

theorem removeKey_snd_all {P : Value → Bool} {t : List (String × Value)} {k : String}
    (ht : t.all (fun p => P p.2) = true) :
    ((removeKey t k).2).all (fun p => P p.2) = true := by
  rw [List.all_eq_true] at *
  intro p hp
  exact ht p (removeKey_snd_mem hp)

/-! ### mergeAux lemmas -/

theorem is_table_exists {v : Value} (h : v.is_table = true) :
    ∃ t, v = Value.table t := by
  cases v <;> simp [Value.is_table] at h ⊢

theorem mergeAux_nil_right (map : List (String × Value)) :
    mergeAux map [] = some (map, []) := by
  induction map with
  | nil => rfl
  | cons p rest ih =>
    obtain ⟨sc, tv⟩ := p
    simp only [mergeAux, removeKey, ih, Option.map_some']

theorem mergeAux_shaped {map other : List (String × Value)}
    (hmap : map.all (fun p => p.2.is_table) = true)
    (hoth : other.all (fun p => p.2.is_table) = true) :
    ∃ merged remaining, mergeAux map other = some (merged, remaining) ∧
      merged.all (fun p => p.2.is_table) = true ∧
      remaining.all (fun p => p.2.is_table) = true := by
  induction map generalizing other with
  | nil => exact ⟨[], other, rfl, rfl, hoth⟩
  | cons p rest ih =>
    obtain ⟨sc, tv⟩ := p
    simp only [List.all_cons, Bool.and_eq_true] at hmap
    obtain ⟨tt, htt⟩ := is_table_exists hmap.1
    rcases hr : removeKey other sc with ⟨fst, other'⟩
    cases fst with
    | none =>
      obtain ⟨merged', remaining', heq, h1, h2⟩ := ih hmap.2 hoth
      refine ⟨(sc, tv) :: merged', remaining', ?_, ?_, h2⟩
      · simp only [mergeAux, hr, heq, Option.map_some']
      · simp only [List.all_cons, Bool.and_eq_true]
        exact ⟨hmap.1, h1⟩
    | some otv =>
      have hget : tableGet other sc = some otv := by
        have := removeKey_fst other sc
        rw [hr] at this
        exact this.symm
      have hotv : otv.is_table = true := by
        have hmem := tableGet_mem hget
        exact (List.all_eq_true.mp hoth) (sc, otv) hmem
      obtain ⟨ott, hott⟩ := is_table_exists hotv
      have hoth' : other'.all (fun p => p.2.is_table) = true := by
        have := removeKey_snd_all (t := other) (k := sc) hoth
        rw [hr] at this
        exact this
      obtain ⟨merged', remaining', heq, h1, h2⟩ := ih hmap.2 hoth'
      refine ⟨(sc, Value.table (tableExtend tt ott)) :: merged', remaining', ?_, ?_, h2⟩
      · simp only [mergeAux, hr, htt, hott, Value.as_table, heq, Option.map_some']
      · simp only [List.all_cons, Bool.and_eq_true]
        exact ⟨rfl, h1⟩

theorem mergeAux_get {map other merged remaining : List (String × Value)}
    (hmap : map.all (fun p => p.2.is_table) = true)
    (hoth : other.all (fun p => p.2.is_table) = true)
    (hnd : nodupKeys other = true)
    (heq : mergeAux map other = some (merged, remaining)) :
    nodupKeys remaining = true ∧
    ∀ sc,
      (tableGet map sc = none →
        tableGet merged sc = none ∧ tableGet remaining sc = tableGet other sc) ∧
      (∀ v, tableGet map sc = some v → tableGet other sc = none →
        tableGet merged sc = some v ∧ tableGet remaining sc = none) ∧
      (∀ a b, tableGet map sc = some (Value.table a) →
        tableGet other sc = some (Value.table b) →
        tableGet merged sc = some (Value.table (tableExtend a b)) ∧
        tableGet remaining sc = none) := by
  induction map generalizing other merged remaining with
  | nil =>
    simp only [mergeAux, Option.some.injEq, Prod.mk.injEq] at heq
    obtain ⟨h1, h2⟩ := heq
    subst h1
    subst h2
    refine ⟨hnd, fun sc => ⟨fun _ => ⟨rfl, rfl⟩, ?_, ?_⟩⟩
    · intro v hv
      simp [tableGet] at hv
    · intro a b hv
      simp [tableGet] at hv
  | cons p rest ih =>
    obtain ⟨sc0, tv⟩ := p
    simp only [List.all_cons, Bool.and_eq_true] at hmap
    obtain ⟨tt, htt⟩ := is_table_exists hmap.1
    rcases hr : removeKey other sc0 with ⟨fst, other'⟩
    cases fst with
    | none =>
      have hget0 : tableGet other sc0 = none := by
        have := removeKey_fst other sc0
        rw [hr] at this
        exact this.symm
      simp only [mergeAux, hr] at heq
      rcases hm : mergeAux rest other with _ | ⟨merged', remaining'⟩
      · rw [hm] at heq
        simp at heq
      · rw [hm] at heq
        simp only [Option.map_some', Option.some.injEq, Prod.mk.injEq] at heq
        obtain ⟨hmg, hrm⟩ := heq
        subst hmg
        subst hrm
        obtain ⟨hndrem, hIH⟩ := ih hmap.2 hoth hnd hm
        refine ⟨hndrem, fun sc => ⟨?_, ?_, ?_⟩⟩
        · intro hnone
          simp only [tableGet] at hnone ⊢
          by_cases h0 : sc0 = sc
          · rw [if_pos h0] at hnone
            exact absurd hnone (by simp)
          · rw [if_neg h0] at hnone ⊢
            exact (hIH sc).1 hnone
        · intro v hv hon
          simp only [tableGet] at hv ⊢
          by_cases h0 : sc0 = sc
          · rw [if_pos h0] at hv ⊢
            refine ⟨hv, ?_⟩
            subst h0
            rcases hrest : tableGet rest sc0 with _ | v'
            · exact ((hIH sc0).1 hrest).2.trans hget0
            · exact ((hIH sc0).2.1 v' hrest hget0).2
          · rw [if_neg h0] at hv ⊢
            exact (hIH sc).2.1 v hv hon
        · intro a b hv hob
          by_cases h0 : sc0 = sc
          · rw [← h0] at hob
            rw [hget0] at hob
            exact absurd hob (by simp)
          · simp only [tableGet] at hv ⊢
            rw [if_neg h0] at hv ⊢
            exact (hIH sc).2.2 a b hv hob
    | some otv =>
      have hget0 : tableGet other sc0 = some otv := by
        have := removeKey_fst other sc0
        rw [hr] at this
        exact this.symm
      have hotv : otv.is_table = true :=
        (List.all_eq_true.mp hoth) (sc0, otv) (tableGet_mem hget0)
      obtain ⟨ott, hott⟩ := is_table_exists hotv
      have hoth' : other'.all (fun p => p.2.is_table) = true := by
        have := removeKey_snd_all (t := other) (k := sc0) hoth
        rw [hr] at this
        exact this
      have hnd' : nodupKeys other' = true := by
        have := removeKey_snd_nodup hnd sc0
        rw [hr] at this
        exact this
      have hoget : ∀ sc', tableGet other' sc' =
          if sc' = sc0 then none else tableGet other sc' := by
        intro sc'
        have := removeKey_snd_get hnd sc0 sc'
        rw [hr] at this
        exact this
      simp only [mergeAux, hr, htt, hott, Value.as_table] at heq
      rcases hm : mergeAux rest other' with _ | ⟨merged', remaining'⟩
      · rw [hm] at heq
        simp at heq
      · rw [hm] at heq
        simp only [Option.map_some', Option.some.injEq, Prod.mk.injEq] at heq
        obtain ⟨hmg, hrm⟩ := heq
        subst hmg
        subst hrm
        obtain ⟨hndrem, hIH⟩ := ih hmap.2 hoth' hnd' hm
        refine ⟨hndrem, fun sc => ⟨?_, ?_, ?_⟩⟩
        · intro hnone
          simp only [tableGet] at hnone ⊢
          by_cases h0 : sc0 = sc
          · rw [if_pos h0] at hnone
            exact absurd hnone (by simp)
          · rw [if_neg h0] at hnone ⊢
            have := (hIH sc).1 hnone
            refine ⟨this.1, ?_⟩
            rw [this.2, hoget sc, if_neg (fun hh => h0 hh.symm)]
        · intro v hv hon
          simp only [tableGet] at hv ⊢
          by_cases h0 : sc0 = sc
          · exfalso
            rw [← h0, hget0] at hon
            exact absurd hon (by simp)
          · rw [if_neg h0] at hv ⊢
            have hon' : tableGet other' sc = none := by
              rw [hoget sc, if_neg (fun hh => h0 hh.symm)]
              exact hon
            exact (hIH sc).2.1 v hv hon'
        · intro a b hv hob
          simp only [tableGet] at hv ⊢
          by_cases h0 : sc0 = sc
          · rw [if_pos h0] at hv ⊢
            subst h0
            rw [hget0] at hob
            have hba : otv = Value.table b := Option.some.inj hob
            have haa : tv = Value.table a := Option.some.inj hv
            have htta : tt = a := by
              rw [htt] at haa
              injection haa
            have hottb : ott = b := by
              rw [hott] at hba
              injection hba
            subst htta
            subst hottb
            refine ⟨rfl, ?_⟩
            rcases hrest : tableGet rest sc0 with _ | v'
            · have := ((hIH sc0).1 hrest).2
              rw [this, hoget sc0, if_pos rfl]
            · have hon' : tableGet other' sc0 = none := by
                rw [hoget sc0, if_pos rfl]
              exact ((hIH sc0).2.1 v' hrest hon').2
          · rw [if_neg h0] at hv ⊢
            have hob' : tableGet other' sc = some (Value.table b) := by
              rw [hoget sc, if_neg (fun hh => h0 hh.symm)]
              exact hob
            exact (hIH sc).2.2 a b hv hob'

/-! ### Substring helpers (for reasoning about error-message content) -/

/-- Does the first character list start with the second? -/
def charsLeading : List Char → List Char → Bool
  | _, [] => true
  | [], _ :: _ => false
  | c :: cs, d :: ds => c == d && charsLeading cs ds

/-- Does the second character list occur contiguously inside the first? -/
def charsContain : List Char → List Char → Bool
  | [], pat => charsLeading [] pat
  | c :: cs, pat => charsLeading (c :: cs) pat || charsContain cs pat

/-- Does `pat` occur as a contiguous substring of `s`? -/
def strContains (s pat : String) : Bool :=
  charsContain s.data pat.data

/-! ### Store well-formedness helpers -/

theorem wellFormedStore_dest {v : Value} (h : v.wellFormedStore = true) :
    ∃ t, v = Value.table t ∧ nodupKeys t = true ∧
      ∀ p ∈ t, ∃ st, p.2 = Value.table st ∧ nodupKeys st = true := by
  cases v with
  | table t =>
    simp only [Value.wellFormedStore, Bool.and_eq_true, List.all_eq_true] at h
    refine ⟨t, rfl, h.1, ?_⟩
    intro p hp
    have := h.2 p hp
    rcases p with ⟨k, pv⟩
    cases pv <;> simp_all
  | boolean b => simp [Value.wellFormedStore] at h
  | integer n => simp [Value.wellFormedStore] at h
  | float f => simp [Value.wellFormedStore] at h
  | string s => simp [Value.wellFormedStore] at h
  | datetime s => simp [Value.wellFormedStore] at h
  | array l => simp [Value.wellFormedStore] at h

theorem all_is_table_of_sections {t : List (String × Value)}
    (h : ∀ p ∈ t, ∃ st, p.2 = Value.table st ∧ nodupKeys st = true) :
    t.all (fun p => p.2.is_table) = true := by
  rw [List.all_eq_true]
  intro p hp
  obtain ⟨st, hst, _⟩ := h p hp
  simp [hst, Value.is_table]

theorem storeShaped_dest {v : Value} (h : v.storeShaped = true) :
    ∃ t, v = Value.table t ∧ t.all (fun p => p.2.is_table) = true := by
  cases v <;> simp [Value.storeShaped] at h ⊢
  assumption

/-! ### Claim theorems -/

/-- C2: the empty store is a two-sided identity for merge: for every
well-formed store `S`, `merge(Config::default(), S)` and
`merge(S, Config::default())` both succeed and equal `S`. -/
theorem merge_default_identity (S : Config) (h : S.config.wellFormedStore = true) :
    Config.merge Config.default S = some S ∧ Config.merge S Config.default = some S := by
  obtain ⟨cv⟩ := S
  obtain ⟨t, heq, hnd, _⟩ := wellFormedStore_dest h
  simp only at heq
  subst heq
  constructor
  · unfold Config.merge
    simp only [Config.default, Value.as_table]
    simp only [mergeAux, Option.map_some']
    rw [show tableExtend [] t = t from tableExtend_nil_left hnd]
  · unfold Config.merge
    simp only [Config.default, Value.as_table]
    rw [mergeAux_nil_right]
    simp only [Option.map_some']
    rfl

theorem merge_default_identity_witness :
    Config.merge Config.default ⟨Value.table [("scope_a", Value.table [("o", Value.integer 1)])]⟩ =
      some ⟨Value.table [("scope_a", Value.table [("o", Value.integer 1)])]⟩ ∧
    Config.merge ⟨Value.table [("scope_a", Value.table [("o", Value.integer 1)])]⟩ Config.default =
      some ⟨Value.table [("scope_a", Value.table [("o", Value.integer 1)])]⟩ :=
  merge_default_identity ⟨Value.table [("scope_a", Value.table [("o", Value.integer 1)])]⟩ rfl

/-- C1: for well-formed stores `A` and `B` and a scope present in both, the
merged store maps that scope to the union of the two option tables, with `B`'s
raw value winning (full replacement) on every option name present in both and
each side's value kept on names present only there. -/
theorem merge_scope_union_precedence (A B C : Config)
    (hA : A.config.wellFormedStore = true) (hB : B.config.wellFormedStore = true)
    (hm : A.merge B = some C) (sc : String) (ta tb : List (String × Value))
    (hta : A.config.get sc = some (Value.table ta))
    (htb : B.config.get sc = some (Value.table tb)) :
    ∃ tc, C.config.get sc = some (Value.table tc) ∧
      ∀ o, tableGet tc o = (tableGet tb o).orElse (fun _ => tableGet ta o) := by
  obtain ⟨tA, hAeq, hndA, hsecA⟩ := wellFormedStore_dest hA
  obtain ⟨tB, hBeq, hndB, hsecB⟩ := wellFormedStore_dest hB
  have hallA := all_is_table_of_sections hsecA
  have hallB := all_is_table_of_sections hsecB
  rw [hAeq] at hta
  rw [hBeq] at htb
  simp only [Value.get] at hta htb
  unfold Config.merge at hm
  rw [hAeq, hBeq] at hm
  simp only [Value.as_table] at hm
  rcases hmx : mergeAux tA tB with _ | ⟨merged, remaining⟩
  · rw [hmx] at hm
    simp at hm
  · rw [hmx] at hm
    simp only [Option.map_some', Option.some.injEq] at hm
    obtain ⟨hndrem, hIH⟩ := mergeAux_get hallA hallB hndB hmx
    have hiii := (hIH sc).2.2 ta tb hta htb
    have hndtb : nodupKeys tb = true := by
      obtain ⟨st, hst, hstnd⟩ := hsecB (sc, Value.table tb) (tableGet_mem htb)
      simp only at hst
      have : st = tb := by
        injection hst.symm
      rw [← this]
      exact hstnd
    refine ⟨tableExtend ta tb, ?_, ?_⟩
    · rw [← hm]
      simp only [Value.get]
      rw [tableGet_tableExtend _ _ _ hndrem, hiii.2, hiii.1]
      simp [Option.orElse]
    · intro o
      exact tableGet_tableExtend ta tb o hndtb

theorem merge_scope_union_precedence_witness :
    ∃ tc, (Config.mk (Value.table [("s", Value.table
        [("x", Value.integer 1), ("y", Value.integer 3), ("z", Value.integer 4)])])).config.get "s" =
        some (Value.table tc) ∧
      ∀ o, tableGet tc o =
        (tableGet [("y", Value.integer 3), ("z", Value.integer 4)] o).orElse
          (fun _ => tableGet [("x", Value.integer 1), ("y", Value.integer 2)] o) :=
  merge_scope_union_precedence
    ⟨Value.table [("s", Value.table [("x", Value.integer 1), ("y", Value.integer 2)])]⟩
    ⟨Value.table [("s", Value.table [("y", Value.integer 3), ("z", Value.integer 4)])]⟩
    ⟨Value.table [("s", Value.table
      [("x", Value.integer 1), ("y", Value.integer 3), ("z", Value.integer 4)])]⟩
    rfl rfl rfl "s"
    [("x", Value.integer 1), ("y", Value.integer 2)]
    [("y", Value.integer 3), ("z", Value.integer 4)]
    rfl rfl

theorem merge_shaped {A B : Config} (hA : A.config.storeShaped = true)
    (hB : B.config.storeShaped = true) :
    ∃ C, A.merge B = some C ∧ C.config.storeShaped = true := by
  obtain ⟨tA, hAeq, hallA⟩ := storeShaped_dest hA
  obtain ⟨tB, hBeq, hallB⟩ := storeShaped_dest hB
  obtain ⟨merged, remaining, heq, h1, h2⟩ := mergeAux_shaped hallA hallB
  refine ⟨⟨Value.table (tableExtend merged remaining)⟩, ?_, ?_⟩
  · unfold Config.merge
    rw [hAeq, hBeq]
    simp only [Value.as_table, heq, Option.map_some']
  · simp only [Value.storeShaped]
    exact tableExtend_all h1 h2

theorem merged_fold_shaped (l : List Config) (acc : Config)
    (hacc : acc.config.storeShaped = true)
    (hl : ∀ c ∈ l, c.config.storeShaped = true) :
    ∃ C, List.foldlM (fun acc c => Config.merge acc c) acc l = some C ∧
      C.config.storeShaped = true := by
  induction l generalizing acc with
  | nil => exact ⟨acc, rfl, hacc⟩
  | cons c rest ih =>
    obtain ⟨C1, hC1, hC1s⟩ := merge_shaped hacc (hl c (List.mem_cons_self _ _))
    obtain ⟨C2, hC2, hC2s⟩ := ih C1 hC1s (fun d hd => hl d (List.mem_cons_of_mem _ hd))
    refine ⟨C2, ?_, hC2s⟩
    simp only [List.foldlM, hC1, Option.bind_some]
    exact hC2

/-- C10: every store reachable through the public constructors (default,
successful parse, merge, merged) has a table root whose section values are all
tables; merge of two such stores never hits a panicking unwrap (it returns
`some`) and preserves the invariant, as does the `merged` fold. -/
theorem store_invariant_public_constructors :
    Config.default.config.storeShaped = true ∧
    (∀ f v c, Config.parseValue f v = .ok c → c.config.storeShaped = true) ∧
    (∀ A B : Config, A.config.storeShaped = true → B.config.storeShaped = true →
      ∃ C, A.merge B = some C ∧ C.config.storeShaped = true) ∧
    (∀ l : List Config, (∀ c ∈ l, c.config.storeShaped = true) →
      ∃ C, Config.merged l = some C ∧ C.config.storeShaped = true) := by
  refine ⟨rfl, ?_, ?_, ?_⟩
  · intro f v c h
    unfold Config.parseValue at h
    split at h
    · exact absurd h (by simp)
    · rename_i hit
      split at h
      · exact absurd h (by simp)
      · rename_i hfind
        simp only [Except.ok.injEq] at h
        subst h
        simp only
        have htab : v.is_table = true := by
          revert hit
          cases v.is_table <;> simp
        obtain ⟨t, ht⟩ := is_table_exists htab
        subst ht
        simp only [Value.storeShaped]
        rw [List.all_eq_true]
        intro p hp
        have := List.find?_eq_none.mp hfind p (by simpa [Value.as_table] using hp)
        revert this
        cases hpt : p.2.is_table <;> simp
  · intro A B hA hB
    exact merge_shaped hA hB
  · intro l hl
    exact merged_fold_shaped l Config.default rfl hl

theorem store_invariant_witness :
    ∃ C, (Config.mk (Value.table [("s", Value.table [("x", Value.integer 1)])])).merge
        (Config.mk (Value.table [("s", Value.table [("y", Value.integer 2)])])) = some C ∧
      C.config.storeShaped = true :=
  store_invariant_public_constructors.2.2.1
    ⟨Value.table [("s", Value.table [("x", Value.integer 1)])]⟩
    ⟨Value.table [("s", Value.table [("y", Value.integer 2)])]⟩ rfl rfl

/-- C3: construction from a parsed value returns a shape error as a value
whenever the root is not a table or some top-level section value is not a
table, and on success wraps the value unchanged with every section a table. -/
theorem parse_shape_rejection (f : String) (v : Value) :
    ((∀ t, v ≠ Value.table t) → ∃ msg, Config.parseValue f v = .error msg) ∧
    (∀ t p, v = Value.table t → p ∈ t → (∀ st, p.2 ≠ Value.table st) →
      ∃ msg, Config.parseValue f v = .error msg) ∧
    (∀ c, Config.parseValue f v = .ok c →
      c.config = v ∧ ∃ t, v = Value.table t ∧ ∀ p ∈ t, ∃ st, p.2 = Value.table st) := by
  refine ⟨?_, ?_, ?_⟩
  · intro hnt
    have hit : v.is_table = false := by
      cases v <;> simp [Value.is_table]
      exact absurd rfl (hnt _)
    unfold Config.parseValue
    rw [if_pos hit]
    exact ⟨_, rfl⟩
  · intro t p hv hp hpnt
    subst hv
    have hpt : p.2.is_table = false := by
      cases hc : p.2 <;> simp [Value.is_table]
      exact absurd hc (hpnt _)
    unfold Config.parseValue
    rw [if_neg (by simp [Value.is_table])]
    simp only [Value.as_table, Option.getD_some]
    rcases hf : t.find? (fun p => p.2.is_table = false) with _ | ⟨key, sect⟩
    · exfalso
      have := List.find?_eq_none.mp hf p hp
      rw [hpt] at this
      exact this rfl
    · rw [hf]
      exact ⟨_, rfl⟩
  · intro c h
    unfold Config.parseValue at h
    split at h
    · exact absurd h (by simp)
    · rename_i hit
      split at h
      · exact absurd h (by simp)
      · rename_i hfind
        simp only [Except.ok.injEq] at h
        subst h
        have htab : v.is_table = true := by
          revert hit
          cases v.is_table <;> simp
        obtain ⟨t, ht⟩ := is_table_exists htab
        subst ht
        refine ⟨rfl, t, rfl, ?_⟩
        intro p hp
        have := List.find?_eq_none.mp hfind p (by simpa [Value.as_table] using hp)
        apply is_table_exists
        revert this
        cases hpt : p.2.is_table <;> simp

theorem parse_shape_rejection_witness :
    (∃ msg, Config.parseValue "pants.toml" (Value.array []) = .error msg) ∧
    (∃ msg, Config.parseValue "pants.toml"
      (Value.table [("GLOBAL", Value.string "nope")]) = .error msg) ∧
    ((Config.parseValue "pants.toml"
        (Value.table [("GLOBAL", Value.table [])])).isOk = true) :=
  ⟨(parse_shape_rejection "pants.toml" (Value.array [])).1 (fun t => by simp),
   (parse_shape_rejection "pants.toml" (Value.table [("GLOBAL", Value.string "nope")])).2.1
     [("GLOBAL", Value.string "nope")] ("GLOBAL", Value.string "nope") rfl
     (List.mem_singleton.mpr rfl) (fun st => by simp),
   rfl⟩

/-- C4: for a present raw value, `get_int` succeeds with `some` exactly when
the value is the integer variant and `get_float` exactly when it is the float
variant; a float given to `get_int` or an integer given to `get_float` is an
error, never a converted number. -/
theorem numeric_exact_variant (S : Config) (id : OptionId) (v : Value)
    (h : S.get_value id = some v) :
    ((∃ n, S.get_int id = .ok (some n)) ↔ ∃ n, v = Value.integer n) ∧
    ((∃ x, S.get_float id = .ok (some x)) ↔ ∃ x, v = Value.float x) ∧
    (∀ x, v = Value.float x → ∃ msg, S.get_int id = .error msg) ∧
    (∀ n, v = Value.integer n → ∃ msg, S.get_float id = .error msg) := by
  simp only [Config.get_int, Config.get_float, h]
  cases v <;> simp [Value.as_integer, Value.as_float]

theorem numeric_exact_variant_witness :
    ∃ msg, Config.get_float
      ⟨Value.table [("scope_a", Value.table [("o", Value.integer 5)])]⟩
      ⟨"scope_a", "o", "[scope_a] o"⟩ = .error msg :=
  (numeric_exact_variant
    ⟨Value.table [("scope_a", Value.table [("o", Value.integer 5)])]⟩
    ⟨"scope_a", "o", "[scope_a] o"⟩ (Value.integer 5) rfl).2.2.2 5 rfl

/-- C5: for an option whose raw value is a table, `get_string_list` errors
when the table is empty or has a key outside add/remove, and otherwise emits
the edits in the fixed order Add-then-Remove regardless of table key order,
with a lone add or remove yielding exactly the single corresponding edit. -/
theorem string_list_table_edits (psl : String → Except (String → String) (List ListEdit))
    (S : Config) (id : OptionId) (sv : Value) (st : List (String × Value))
    (hs : S.config.get id.scope = some sv)
    (ho : sv.get (Config.option_name id) = some (Value.table st)) :
    ((st = [] ∨ ∃ p ∈ st, p.1 ≠ "add" ∧ p.1 ≠ "remove") →
      ∃ msg, Config.get_string_list psl S id = .error msg) ∧
    (∀ av rv xs ys, tableGet st "add" = some av → tableGet st "remove" = some rv →
      (∀ p ∈ st, p.1 = "add" ∨ p.1 = "remove") →
      Config.extract_string_list (Config.option_name id ++ ".add") av = .ok xs →
      Config.extract_string_list (Config.option_name id ++ ".remove") rv = .ok ys →
      Config.get_string_list psl S id =
        .ok (some [ListEdit.mk ListEditAction.Add xs, ListEdit.mk ListEditAction.Remove ys])) ∧
    (∀ av xs, tableGet st "add" = some av → tableGet st "remove" = none →
      (∀ p ∈ st, p.1 = "add" ∨ p.1 = "remove") →
      Config.extract_string_list (Config.option_name id ++ ".add") av = .ok xs →
      Config.get_string_list psl S id = .ok (some [ListEdit.mk ListEditAction.Add xs])) ∧
    (∀ rv ys, tableGet st "add" = none → tableGet st "remove" = some rv →
      (∀ p ∈ st, p.1 = "add" ∨ p.1 = "remove") →
      Config.extract_string_list (Config.option_name id ++ ".remove") rv = .ok ys →
      Config.get_string_list psl S id = .ok (some [ListEdit.mk ListEditAction.Remove ys])) := by
  have hkeysAll : (∀ p ∈ st, p.1 = "add" ∨ p.1 = "remove") →
      st.all (fun p => p.1 = "add" || p.1 = "remove") = true := by
    intro hk
    rw [List.all_eq_true]
    intro p hp
    rcases hk p hp with h | h <;> simp [h]
  refine ⟨?_, ?_, ?_, ?_⟩
  · intro hcond
    have hc : (st.isEmpty || !(st.all (fun p => p.1 = "add" || p.1 = "remove"))) = true := by
      rcases hcond with hnil | ⟨p, hp, hpa, hpr⟩
      · subst hnil
        rfl
      · rw [Bool.or_eq_true]
        right
        simp only [Bool.not_eq_true']
        rw [List.all_eq_false]
        exact ⟨p, hp, by simp [hpa, hpr]⟩
    simp only [Config.get_string_list, hs, computeEdits, ho, hc]
    exact ⟨_, rfl⟩
  · intro av rv xs ys hadd hrem hkeys hxs hys
    have hne : st.isEmpty = false := by
      cases st
      · simp [tableGet] at hadd
      · rfl
    simp only [Config.get_string_list, hs, computeEdits, ho, hne, hkeysAll hkeys,
      Bool.not_true, Bool.or_false, editFor, hadd, hrem, hxs, hys, Except.map,
      List.singleton_append, if_false, List.isEmpty_cons]
    rfl
  · intro av xs hadd hrem hkeys hxs
    have hne : st.isEmpty = false := by
      cases st
      · simp [tableGet] at hadd
      · rfl
    simp only [Config.get_string_list, hs, computeEdits, ho, hne, hkeysAll hkeys,
      Bool.not_true, Bool.or_false, editFor, hadd, hrem, hxs, Except.map,
      List.append_nil, if_false, List.isEmpty_cons]
    rfl
  · intro rv ys hadd hrem hkeys hys
    have hne : st.isEmpty = false := by
      cases st
      · simp [tableGet] at hrem
      · rfl
    simp only [Config.get_string_list, hs, computeEdits, ho, hne, hkeysAll hkeys,
      Bool.not_true, Bool.or_false, editFor, hadd, hrem, hys, Except.map,
      List.nil_append, if_false, List.isEmpty_cons]
    rfl

theorem string_list_table_edits_witness :
    Config.get_string_list (fun _ => .ok [])
      ⟨Value.table [("scope_a", Value.table [("opts", Value.table
        [("remove", Value.array [Value.string "y"]), ("add", Value.array [Value.string "x"])])])]⟩
      ⟨"scope_a", "opts", "[scope_a] opts"⟩ =
      .ok (some [ListEdit.mk ListEditAction.Add ["x"], ListEdit.mk ListEditAction.Remove ["y"]]) :=
  (string_list_table_edits (fun _ => .ok [])
    ⟨Value.table [("scope_a", Value.table [("opts", Value.table
      [("remove", Value.array [Value.string "y"]), ("add", Value.array [Value.string "x"])])])]⟩
    ⟨"scope_a", "opts", "[scope_a] opts"⟩
    (Value.table [("opts", Value.table
      [("remove", Value.array [Value.string "y"]), ("add", Value.array [Value.string "x"])])])
    [("remove", Value.array [Value.string "y"]), ("add", Value.array [Value.string "x"])]
    rfl rfl).2.1
    (Value.array [Value.string "x"]) (Value.array [Value.string "y"]) ["x"] ["y"]
    rfl rfl (by decide) rfl rfl

/-- C6: `get_string_list` never succeeds with an empty edit sequence: a
successful lookup is `none` (absent scope or option, or zero produced edits)
or `some` of a nonempty sequence. -/
theorem string_list_never_empty_some
    (psl : String → Except (String → String) (List ListEdit))
    (S : Config) (id : OptionId) (es : List ListEdit)
    (h : Config.get_string_list psl S id = .ok (some es)) : es ≠ [] := by
  unfold Config.get_string_list at h
  rcases hg : S.config.get id.scope with _ | sv
  · rw [hg] at h
    simp at h
  · simp only [hg] at h
    rcases hc : computeEdits psl (Config.option_name id) sv with e | edits
    · simp only [hc] at h
      exact Except.noConfusion h
    · simp only [hc] at h
      by_cases he : edits.isEmpty = true
      · rw [if_pos he] at h
        simp at h
      · rw [if_neg he] at h
        simp only [Except.ok.injEq, Option.some.injEq] at h
        subst h
        intro hnil
        subst hnil
        exact he rfl

theorem string_list_never_empty_some_witness :
    ([ListEdit.mk ListEditAction.Replace ["a", "b"]] : List ListEdit) ≠ [] :=
  string_list_never_empty_some (fun _ => .ok [])
    ⟨Value.table [("scope_a", Value.table
      [("opts", Value.array [Value.string "a", Value.string "b"])])]⟩
    ⟨"scope_a", "opts", "[scope_a] opts"⟩
    [ListEdit.mk ListEditAction.Replace ["a", "b"]] rfl

/-- C7: when the identity's scope is not a key of the store, all six accessors
return `Ok(None)`: absence of the whole scope is never an error. -/
theorem absent_scope_all_accessors
    (psl : String → Except (String → String) (List ListEdit))
    (S : Config) (id : OptionId) (h : S.config.get id.scope = none) :
    S.get_string id = .ok none ∧ S.get_bool id = .ok none ∧
    S.get_int id = .ok none ∧ S.get_float id = .ok none ∧
    Config.get_string_list psl S id = .ok none ∧
    S.get_string_dict id = .ok none := by
  have hv : S.get_value id = none := by
    unfold Config.get_value
    rw [h]
    rfl
  refine ⟨?_, ?_, ?_, ?_, ?_, ?_⟩ <;>
    simp only [Config.get_string, Config.get_bool, Config.get_int, Config.get_float,
      Config.get_string_list, Config.get_string_dict, hv, h]

theorem absent_scope_all_accessors_witness :
    Config.get_string ⟨Value.table [("scope_a", Value.table [])]⟩
        ⟨"scope_b", "o", "[scope_b] o"⟩ = .ok none ∧
    Config.get_bool ⟨Value.table [("scope_a", Value.table [])]⟩
        ⟨"scope_b", "o", "[scope_b] o"⟩ = .ok none ∧
    Config.get_int ⟨Value.table [("scope_a", Value.table [])]⟩
        ⟨"scope_b", "o", "[scope_b] o"⟩ = .ok none ∧
    Config.get_float ⟨Value.table [("scope_a", Value.table [])]⟩
        ⟨"scope_b", "o", "[scope_b] o"⟩ = .ok none ∧
    Config.get_string_list (fun _ => .ok []) ⟨Value.table [("scope_a", Value.table [])]⟩
        ⟨"scope_b", "o", "[scope_b] o"⟩ = .ok none ∧
    Config.get_string_dict ⟨Value.table [("scope_a", Value.table [])]⟩
        ⟨"scope_b", "o", "[scope_b] o"⟩ = .ok none :=
  absent_scope_all_accessors (fun _ => .ok [])
    ⟨Value.table [("scope_a", Value.table [])]⟩ ⟨"scope_b", "o", "[scope_b] o"⟩ rfl

/-- C8: for a present option value, `get_string_dict` yields a literal for a
string, a native mapping preserving every key and value as-is for a table,
`none` for absence, and an error for every other shape. -/
theorem string_dict_shapes (S : Config) (id : OptionId) (sv : Value)
    (hs : S.config.get id.scope = some sv) :
    (∀ s, sv.get (Config.option_name id) = some (Value.string s) →
      S.get_string_dict id = .ok (some (StringDict.Literal s))) ∧
    (∀ t, sv.get (Config.option_name id) = some (Value.table t) →
      ∃ m, S.get_string_dict id = .ok (some (StringDict.Native m)) ∧
        ∀ k, tableGet m k = tableGet t k) ∧
    (sv.get (Config.option_name id) = none → S.get_string_dict id = .ok none) ∧
    (∀ v, sv.get (Config.option_name id) = some v →
      (∀ s, v ≠ Value.string s) → (∀ t, v ≠ Value.table t) →
      ∃ msg, S.get_string_dict id = .error msg) := by
  refine ⟨?_, ?_, ?_, ?_⟩
  · intro s ho
    simp only [Config.get_string_dict, hs, ho]
  · intro t ho
    refine ⟨t, ?_, fun k => rfl⟩
    simp only [Config.get_string_dict, hs, ho]
  · intro ho
    simp only [Config.get_string_dict, hs, ho]
  · intro v ho hnstr hntab
    cases v with
    | string s => exact absurd rfl (hnstr s)
    | table t => exact absurd rfl (hntab t)
    | boolean b =>
      simp only [Config.get_string_dict, hs, ho]
      exact ⟨_, rfl⟩
    | integer n =>
      simp only [Config.get_string_dict, hs, ho]
      exact ⟨_, rfl⟩
    | float x =>
      simp only [Config.get_string_dict, hs, ho]
      exact ⟨_, rfl⟩
    | datetime d =>
      simp only [Config.get_string_dict, hs, ho]
      exact ⟨_, rfl⟩
    | array l =>
      simp only [Config.get_string_dict, hs, ho]
      exact ⟨_, rfl⟩

theorem string_dict_shapes_witness :
    ∃ m, Config.get_string_dict
        ⟨Value.table [("scope_a", Value.table [("o", Value.table
          [("k1", Value.integer 1), ("k2", Value.array [Value.string "v"])])])]⟩
        ⟨"scope_a", "o", "[scope_a] o"⟩ = .ok (some (StringDict.Native m)) ∧
      ∀ k, tableGet m k =
        tableGet [("k1", Value.integer 1), ("k2", Value.array [Value.string "v"])] k :=
  (string_dict_shapes
    ⟨Value.table [("scope_a", Value.table [("o", Value.table
      [("k1", Value.integer 1), ("k2", Value.array [Value.string "v"])])])]⟩
    ⟨"scope_a", "o", "[scope_a] o"⟩
    (Value.table [("o", Value.table
      [("k1", Value.integer 1), ("k2", Value.array [Value.string "v"])])])
    rfl).2.1
    [("k1", Value.integer 1), ("k2", Value.array [Value.string "v"])] rfl

/-! ### Error-message form of array-of-strings extraction -/

theorem extractItems_error_form (n : String) (w : Value) (l : List Value) (msg : String)
    (h : extractItems n w l = .error msg) : ∃ rest, msg = "Expected " ++ n ++ rest := by
  induction l with
  | nil => simp [extractItems] at h
  | cons item rest ih =>
    simp only [extractItems] at h
    rcases hi : item.as_str with _ | s
    · rw [hi] at h
      simp only [Except.error.injEq] at h
      refine ⟨" to be an array of strings but given " ++ w.render
        ++ " containing non string item " ++ item.render, ?_⟩
      rw [← h]
      simp [String.append_assoc]
    · rw [hi] at h
      rcases he : extractItems n w rest with m | xs
      · rw [he] at h
        simp only [Except.map, Except.error.injEq] at h
        subst h
        exact ih he
      · rw [he] at h
        simp [Except.map] at h

theorem extract_string_list_error_form (n : String) (v : Value) (msg : String)
    (h : Config.extract_string_list n v = .error msg) :
    ∃ rest, msg = "Expected " ++ n ++ rest := by
  unfold Config.extract_string_list at h
  rcases ha : v.as_array with _ | arr
  · rw [ha] at h
    simp only [Except.error.injEq] at h
    refine ⟨" to be a toml array or Python sequence, but given " ++ v.render ++ ".", ?_⟩
    rw [← h]
    simp [String.append_assoc]
  · rw [ha] at h
    exact extractItems_error_form n v arr msg h

theorem all_keys_add_remove {st : List (String × Value)}
    (hk : ∀ p ∈ st, p.1 = "add" ∨ p.1 = "remove") :
    st.all (fun p => p.1 = "add" || p.1 = "remove") = true := by
  rw [List.all_eq_true]
  intro p hp
  rcases hk p hp with h | h <;> simp [h]

/-- C9 (amended): when a table-shaped string-list option has an `add` or
`remove` entry whose value fails array-of-strings extraction, the error
message names the sub-option qualified by the option name only —
`option.add` / `option.remove` — with no scope component (the option name is
`id.name(...)`, which does not include the scope). -/
theorem sub_option_error_names_option_only
    (psl : String → Except (String → String) (List ListEdit))
    (S : Config) (id : OptionId) (sv : Value) (st : List (String × Value))
    (hs : S.config.get id.scope = some sv)
    (ho : sv.get (Config.option_name id) = some (Value.table st))
    (hkeys : ∀ p ∈ st, p.1 = "add" ∨ p.1 = "remove") :
    (∀ av, tableGet st "add" = some av →
      (∀ xs, Config.extract_string_list (Config.option_name id ++ ".add") av ≠ .ok xs) →
      ∃ rest, Config.get_string_list psl S id =
        .error ("Expected " ++ (Config.option_name id ++ ".add") ++ rest)) ∧
    (∀ rv e1,
      editFor (Config.option_name id ++ ".add") st "add" ListEditAction.Add = .ok e1 →
      tableGet st "remove" = some rv →
      (∀ ys, Config.extract_string_list (Config.option_name id ++ ".remove") rv ≠ .ok ys) →
      ∃ rest, Config.get_string_list psl S id =
        .error ("Expected " ++ (Config.option_name id ++ ".remove") ++ rest)) := by
  constructor
  · intro av hadd hfail
    have hne : st.isEmpty = false := by
      cases st
      · simp [tableGet] at hadd
      · rfl
    rcases he : Config.extract_string_list (Config.option_name id ++ ".add") av with m | xs
    · obtain ⟨rest, hrest⟩ := extract_string_list_error_form _ _ _ he
      refine ⟨rest, ?_⟩
      simp only [Config.get_string_list, hs, computeEdits, ho, hne, all_keys_add_remove hkeys,
        Bool.not_true, Bool.or_false, if_false, editFor, hadd, he, Except.map]
      rw [hrest]
      simp
    · exact absurd he (hfail xs)
  · intro rv e1 he1 hrem hfail
    have hne : st.isEmpty = false := by
      cases st
      · simp [tableGet] at hrem
      · rfl
    rcases he : Config.extract_string_list (Config.option_name id ++ ".remove") rv with m | ys
    · obtain ⟨rest, hrest⟩ := extract_string_list_error_form _ _ _ he
      refine ⟨rest, ?_⟩
      simp only [Config.get_string_list, hs, computeEdits, ho, hne, all_keys_add_remove hkeys,
        Bool.not_true, Bool.or_false, if_false, he1]
      simp only [editFor, hrem, he, Except.map]
      rw [hrest]
      simp
    · exact absurd he (hfail ys)

theorem sub_option_error_names_option_only_witness :
    ∃ rest, Config.get_string_list (fun _ => .ok [])
        ⟨Value.table [("my_scope", Value.table
          [("my_opt", Value.table [("add", Value.integer 7)])])]⟩
        ⟨"my_scope", "my_opt", "[my_scope] my_opt"⟩ =
        .error ("Expected " ++ (Config.option_name
          ⟨"my_scope", "my_opt", "[my_scope] my_opt"⟩ ++ ".add") ++ rest) :=
  (sub_option_error_names_option_only (fun _ => .ok [])
    ⟨Value.table [("my_scope", Value.table
      [("my_opt", Value.table [("add", Value.integer 7)])])]⟩
    ⟨"my_scope", "my_opt", "[my_scope] my_opt"⟩
    (Value.table [("my_opt", Value.table [("add", Value.integer 7)])])
    [("add", Value.integer 7)]
    rfl rfl (by decide)).1 (Value.integer 7) rfl
    (by
      intro xs h
      simp [Config.extract_string_list, Value.as_array] at h)

/-- C9 counterexample: at a concrete store, scope `my_scope` and option
`my_opt` whose `add` entry is the integer `7`, the produced error message is
qualified as `my_opt.add` and does not contain `my_scope.my_opt.add`, so the
error does not name the scope-qualified sub-option. -/
theorem sub_option_error_scope_qualified_counterexample :
    Config.get_string_list (fun _ => .ok [])
      ⟨Value.table [("my_scope", Value.table
        [("my_opt", Value.table [("add", Value.integer 7)])])]⟩
      ⟨"my_scope", "my_opt", "[my_scope] my_opt"⟩ =
      .error "Expected my_opt.add to be a toml array or Python sequence, but given 7." ∧
    strContains "Expected my_opt.add to be a toml array or Python sequence, but given 7."
      "my_scope.my_opt.add" = false ∧
    strContains "Expected my_opt.add to be a toml array or Python sequence, but given 7."
      "my_opt.add" = true :=
  ⟨rfl, by decide, by decide⟩
